import Mathlib

/-!
# Verification of the RSA attack comparison program

Shallow embedding of the numeric core of `rsa-attack-comparison.cpp`:
modular exponentiation (`modExp`), trial-division factoring
(`primeFactors`), Euler's totient (`totient`), the extended Euclidean
algorithm (`modInverse`), the brute-force attack (`attack1`) and the
factoring attack (`attack2`).

Modelling conventions:
* C++ `long long` values are modelled as `ℤ`; C++ `unsigned long long`
  values as `ℕ`, with every multiplication that the source performs at
  64 bits followed by an explicit reduction `% 2 ^ 64` (unsigned wrap).
* The implicit conversion `long long → unsigned long long` at call sites
  and comparisons is `toU64` (reduction mod `2 ^ 64`, always nonnegative).
* Signed division and remainder (`/`, `%` on `long long`) truncate
  toward zero in C++; they are modelled by `Int.tdiv` / `Int.tmod`.
* The source's loops are modelled as recursive functions; loops that the
  source would not exit (e.g. stripping factors of 2 from `x = 0`) or
  operations that are undefined behavior in C++ (out-of-bounds vector
  indexing in `primeFactors` when fewer than two factors were collected,
  `a %= 0` in `modExp`) are modelled by extra guards / an `Option` result,
  and every theorem below restricts its inputs so that the guarded cases
  coincide with actually defined C++ behavior.
* The C++ trial-division bound `i <= sqrt(x)` computes `sqrt` on binary64
  floating point; for the integer ranges the program is specified for
  (`x` far below `2 ^ 53`) this agrees with the integer square root, so it
  is modelled by `Nat.sqrt`.
-/

/-- Wrap-around modulus of C++ 64-bit unsigned arithmetic. -/
def U64 : ℕ := 2 ^ 64

/-- The C++ conversion `long long → unsigned long long`
(reduction modulo `2 ^ 64`; the identity on nonnegative in-range values). -/
def toU64 (z : ℤ) : ℕ := (z % (2 ^ 64 : ℤ)).toNat

/-- The `while (e > 0)` loop of `modExp`, carrying the accumulator `x`.
Each 64-bit unsigned product is wrapped by `% U64` before the reduction
`% b`, exactly as the C++ `unsigned long long` multiplication behaves. -/
def modExpLoop (a : ℕ) (e : ℤ) (b : ℕ) (x : ℕ) : ℕ :=
  if 0 < e then
    modExpLoop (a * a % U64 % b) (e.tdiv 2) b
      (if e.tmod 2 = 1 then x * a % U64 % b else x)
  else x
termination_by e.toNat
decreasing_by
  rename_i h
  rw [Int.tdiv_eq_ediv (by omega) (by omega)]
  omega

/-- `modExp` from the source: modular exponentiation by squaring.
`a` and `b` are `unsigned long long`, the exponent `e` is `long long`.
The source first reduces `a %= b` (undefined behavior for `b = 0`;
all theorems below assume `1 ≤ b`). -/
def modExp (a : ℕ) (e : ℤ) (b : ℕ) : ℕ :=
  modExpLoop (a % b) e b 1

/-- The `while (x % 2 == 0) x /= 2` loop of `primeFactors`
(strips factors of 2 *without* collecting them).  The C++ loop does not
terminate for `x = 0`; the guard `x ≠ 0` makes the model total. -/
def stripTwos (x : ℕ) : ℕ :=
  if x ≠ 0 ∧ x % 2 = 0 then stripTwos (x / 2) else x
termination_by x
decreasing_by
  rename_i h
  exact Nat.div_lt_self (Nat.pos_of_ne_zero h.1) (by omega)

/-- The inner `while (x % i == 0) { res.push_back(i); x /= i; }` loop of
`primeFactors`: returns the list of pushed factors and the remaining `x`.
The guards `2 ≤ i` and `x ≠ 0` hold at every reachable call site
(`i` starts at 3) and make the model total. -/
def divideOut (x i : ℕ) : List ℕ × ℕ :=
  if 2 ≤ i ∧ x ≠ 0 ∧ x % i = 0 then
    let r := divideOut (x / i) i
    (i :: r.1, r.2)
  else ([], x)
termination_by x
decreasing_by
  rename_i h
  exact Nat.div_lt_self (Nat.pos_of_ne_zero h.2.1) (by omega)

theorem divideOut_snd_le (x i : ℕ) : (divideOut x i).2 ≤ x := by
  induction x using Nat.strong_induction_on with
  | _ x ih =>
    rw [divideOut]
    split
    · rename_i h
      have hlt : x / i < x := Nat.div_lt_self (Nat.pos_of_ne_zero h.2.1) (by omega)
      exact le_of_lt (lt_of_le_of_lt (ih _ hlt) hlt)
    · exact le_rfl

/-- The `for (int i = 3; i <= sqrt(x); i += 2)` loop of `primeFactors`:
returns the collected factor list and the remaining `x`.  The bound
`sqrt(x)` is re-evaluated each iteration on the current `x`. -/
def trialLoop (x i : ℕ) : List ℕ × ℕ :=
  if i ≤ Nat.sqrt x then
    let r := divideOut x i
    let s := trialLoop r.2 (i + 2)
    (r.1 ++ s.1, s.2)
  else ([], x)
termination_by Nat.sqrt x + 2 - i
decreasing_by
  rename_i h
  have h1 : Nat.sqrt (divideOut x i).2 ≤ Nat.sqrt x :=
    Nat.sqrt_le_sqrt (divideOut_snd_le x i)
  omega

/-- The full factor sequence collected by `primeFactors`: strip 2s, run
the odd trial-division loop from 3, and push the remainder if `> 2`. -/
def factorSeq (x : ℕ) : List ℕ :=
  let r := trialLoop (stripTwos x) 3
  if r.2 > 2 then r.1 ++ [r.2] else r.1

/-- `primeFactors` from the source: sets `p = res[0]`, `q = res[1]`.
When the collected sequence has fewer than two elements the C++
indexing is out of bounds (undefined behavior); this is modelled by
`none`.  When it has two or more, the C++ code silently returns the
first two collected factors. -/
def primeFactors (x : ℕ) : Option (ℕ × ℕ) :=
  match factorSeq x with
  | p :: q :: _ => some (p, q)
  | _ => none

/-- `totient` from the source: `(p - 1) * (q - 1)`. -/
def totient (p q : ℤ) : ℤ := (p - 1) * (q - 1)

/-- The `while (b != 0)` loop of `modInverse`: one iteration computes
`q = a / b`, `t1 = a % b`, `t2 = d + q * y` and swaps
`d ← y, y ← t2, a ← b, b ← t1, i ← -i`.  Returns the final `(a, d, i)`. -/
def egcdLoop (a b d y i : ℤ) : ℤ × ℤ × ℤ :=
  if b ≠ 0 then egcdLoop b (a.tmod b) y (d + a.tdiv b * y) (-i)
  else (a, d, i)
termination_by b.natAbs
decreasing_by
  rename_i h
  have h2 : (a.tmod b).natAbs = a.natAbs % b.natAbs := by
    cases a <;> cases b <;> simp [Int.tmod] <;> rfl
  have h3 : b.natAbs ≠ 0 := fun hh => h (Int.natAbs_eq_zero.mp hh)
  have := Nat.mod_lt a.natAbs (Nat.pos_of_ne_zero h3)
  omega

/-- `modInverse` from the source: runs the extended Euclidean loop
starting from `d = 1, y = 0, i = 1`; returns the sentinel `0` when the
final `a` (the gcd) is not 1, otherwise `phiN - d` or `d` according to
the sign flag `i`. -/
def modInverse (e phiN : ℤ) : ℤ :=
  let r := egcdLoop e phiN 1 0 1
  if r.1 ≠ 1 then 0
  else if r.2.2 < 0 then phiN - r.2.1 else r.2.1

/-- The `for (m = 0; m < n; m++)` scan of `attack1`.  The comparison
`modExp(m, e, n) == c` converts the `long long` values `m`, `n`, `c` to
`unsigned long long`. -/
def attack1Loop (e n c m : ℤ) : ℤ :=
  if m < n then
    if modExp (toU64 m) e (toU64 n) = toU64 c then m
    else attack1Loop e n c (m + 1)
  else -1
termination_by (n - m).toNat
decreasing_by
  rename_i h _
  omega

/-- `attack1` from the source: brute-force scan for `m` with
`modExp(m, e, n) == c`, returning the sentinel `-1` when the scan
exhausts `[0, n)`. -/
def attack1 (e n c : ℤ) : ℤ := attack1Loop e n c 0

/-- The closing `for (m = 0; m < n; m++)` scan of `attack2`, comparing
the `unsigned long long` value `ptext` against `m` (converted). -/
def attack2Scan (ptext : ℕ) (n m : ℤ) : ℤ :=
  if m < n then
    if ptext = toU64 m then m else attack2Scan ptext n (m + 1)
  else -1
termination_by (n - m).toNat
decreasing_by
  rename_i h _
  omega

/-- `attack2` from the source: factor `n`, derive `d = modInverse(e, φ)`,
compute `ptext = modExp(c, d, n)` and scan for `m = ptext`.  Returns the
tuple `(m, p, q, d)` (the source returns `m` and writes `p`, `q`, `d`
through reference parameters); `none` models the undefined behavior of
`primeFactors` when fewer than two factors were collected. -/
def attack2 (e n c : ℤ) : Option (ℤ × ℤ × ℤ × ℤ) :=
  match primeFactors n.toNat with
  | none => none
  | some pq =>
    let p : ℤ := (pq.1 : ℤ)
    let q : ℤ := (pq.2 : ℤ)
    let d : ℤ := modInverse e (totient p q)
    let ptext : ℕ := modExp (toU64 c) d (toU64 n)
    some (attack2Scan ptext n 0, p, q, d)

/-! ## Generic helper lemmas -/

/-- Characterization of `Nat.sqrt` used to evaluate the trial-division
bound on concrete inputs. -/
theorem sqrt_eq_of {x k : ℕ} (h1 : k * k ≤ x) (h2 : x < (k+1) * (k+1)) :
    Nat.sqrt x = k := by
  have ha : k ≤ Nat.sqrt x := Nat.le_sqrt.mpr h1
  have hb : Nat.sqrt x < k + 1 := Nat.sqrt_lt.mpr h2
  omega

theorem toU64_of_nonneg {z : ℤ} (h0 : 0 ≤ z) (h1 : z < 2 ^ 64) :
    (toU64 z : ℤ) = z := by
  unfold toU64
  rw [Int.emod_eq_of_lt h0 (by exact_mod_cast h1)]
  exact Int.toNat_of_nonneg h0

theorem toU64_lt (z : ℤ) : toU64 z < U64 := by
  unfold toU64 U64
  have h1 : z % (2 ^ 64 : ℤ) < 2 ^ 64 := Int.emod_lt_of_pos z (by norm_num)
  omega

/-! ## Loop unfolding equations (used to evaluate the model on
concrete inputs and in the correctness proofs) -/

theorem modExpLoop_step (a : ℕ) (e : ℤ) (b x : ℕ) (h : 0 < e) :
    modExpLoop a e b x =
      modExpLoop (a * a % U64 % b) (e.tdiv 2) b
        (if e.tmod 2 = 1 then x * a % U64 % b else x) := by
  rw [modExpLoop]
  simp [h]

theorem modExpLoop_done (a : ℕ) (e : ℤ) (b x : ℕ) (h : e ≤ 0) :
    modExpLoop a e b x = x := by
  rw [modExpLoop]
  simp [not_lt.mpr h]

theorem egcdLoop_step (a b d y i : ℤ) (h : b ≠ 0) :
    egcdLoop a b d y i = egcdLoop b (a.tmod b) y (d + a.tdiv b * y) (-i) := by
  rw [egcdLoop]
  simp [h]

theorem egcdLoop_done (a d y i : ℤ) : egcdLoop a 0 d y i = (a, d, i) := by
  rw [egcdLoop]
  simp

theorem stripTwos_odd {x : ℕ} (h : x % 2 = 1) : stripTwos x = x := by
  rw [stripTwos]
  simp [h]

theorem divideOut_not_dvd {x i : ℕ} (h : ¬ i ∣ x) : divideOut x i = ([], x) := by
  rw [divideOut]
  have : ¬ x % i = 0 := fun hh => h (Nat.dvd_of_mod_eq_zero hh)
  simp [this]

theorem trialLoop_done {x i : ℕ} (h : Nat.sqrt x < i) : trialLoop x i = ([], x) := by
  rw [trialLoop]
  simp [Nat.not_le.mpr h]

theorem trialLoop_step {x i : ℕ} (h : i ≤ Nat.sqrt x) :
    trialLoop x i =
      ((divideOut x i).1 ++ (trialLoop (divideOut x i).2 (i + 2)).1,
        (trialLoop (divideOut x i).2 (i + 2)).2) := by
  rw [trialLoop]
  simp [h]

theorem attack1Loop_step (e n c m : ℤ) (h : m < n) :
    attack1Loop e n c m =
      if modExp (toU64 m) e (toU64 n) = toU64 c then m
      else attack1Loop e n c (m + 1) := by
  rw [attack1Loop]
  simp [h]

theorem attack1Loop_done (e n c m : ℤ) (h : ¬ m < n) : attack1Loop e n c m = -1 := by
  rw [attack1Loop]
  simp [h]

theorem attack2Scan_step (ptext : ℕ) (n m : ℤ) (h : m < n) :
    attack2Scan ptext n m =
      if ptext = toU64 m then m else attack2Scan ptext n (m + 1) := by
  rw [attack2Scan]
  simp [h]

theorem attack2Scan_done (ptext : ℕ) (n m : ℤ) (h : ¬ m < n) :
    attack2Scan ptext n m = -1 := by
  rw [attack2Scan]
  simp [h]

/-! ## Correctness of `modExp` -/

/-- Once the exponent is positive, the accumulator is reduced `% b` at
least once before being returned, so the result is `< b`. -/
theorem modExpLoop_lt {b : ℕ} (hb : 0 < b) :
    ∀ k : ℕ, ∀ e : ℤ, e.toNat ≤ k → 1 ≤ e → ∀ a x, modExpLoop a e b x < b := by
  intro k
  induction k with
  | zero => intro e hk he a x; omega
  | succ k ih =>
    intro e hk he a x
    rw [modExpLoop_step a e b x (by omega)]
    rcases lt_or_le e 2 with h2 | h2
    · have he1 : e = 1 := by omega
      subst he1
      rw [modExpLoop_done _ _ _ _ (by decide)]
      simp only [show (1 : ℤ).tmod 2 = 1 from rfl, if_pos rfl]
      exact Nat.mod_lt _ hb
    · have hd : e.tdiv 2 = e / 2 := Int.tdiv_eq_ediv (by omega) (by omega)
      exact ih (e.tdiv 2) (by omega) (by omega) _ _

theorem mod_mul_pow_mod (b u v k : ℕ) :
    (u % b) * (v % b) ^ k % b = u * v ^ k % b := by
  conv_lhs => rw [Nat.mul_mod, ← Nat.pow_mod, Nat.mod_mod_of_dvd _ dvd_rfl,
    ← Nat.mul_mod]

theorem mul_pow_mod (b u v k : ℕ) : u * (v % b) ^ k % b = u * v ^ k % b := by
  conv_lhs => rw [Nat.mul_mod, ← Nat.pow_mod, ← Nat.mul_mod]

/-- Main loop invariant of `modExp`: under the 64-bit width assumption
`b * b ≤ 2 ^ 64`, when base and accumulator are reduced the loop
computes `x * a ^ e % b`. -/
theorem modExpLoop_eq {b : ℕ} (hb : 0 < b) (hwidth : b * b ≤ U64) :
    ∀ N : ℕ, ∀ e : ℤ, e.toNat ≤ N → 0 ≤ e →
      ∀ a x, a < b → x < b → modExpLoop a e b x = x * a ^ e.toNat % b := by
  intro N
  induction N with
  | zero =>
    intro e hN he a x ha hx
    have he0 : e = 0 := by omega
    subst he0
    rw [modExpLoop_done _ _ _ _ le_rfl]
    simp [Nat.mod_eq_of_lt hx]
  | succ N ih =>
    intro e hN he a x ha hx
    rcases eq_or_lt_of_le he with he0 | hepos
    · rw [← he0, modExpLoop_done _ _ _ _ le_rfl]
      simp [Nat.mod_eq_of_lt hx]
    · rw [modExpLoop_step a e b x hepos]
      have hxa' : x * a % U64 = x * a :=
        Nat.mod_eq_of_lt (lt_of_lt_of_le (Nat.mul_lt_mul'' hx ha) hwidth)
      have haa' : a * a % U64 = a * a :=
        Nat.mod_eq_of_lt (lt_of_lt_of_le (Nat.mul_lt_mul'' ha ha) hwidth)
      have hd : e.tdiv 2 = e / 2 := Int.tdiv_eq_ediv (by omega) (by omega)
      have hm : e.tmod 2 = e % 2 := Int.tmod_eq_emod (by omega) (by omega)
      rcases Int.emod_two_eq e with hpar | hpar
      · have hif : ¬ e.tmod 2 = 1 := by rw [hm, hpar]; norm_num
        rw [if_neg hif]
        rw [ih (e.tdiv 2) (by omega) (by omega) _ x (Nat.mod_lt _ hb) hx]
        rw [haa', mul_pow_mod]
        have hsplit : e.toNat = 2 * (e.tdiv 2).toNat := by omega
        rw [hsplit]
        congr 1
        ring
      · have hif : e.tmod 2 = 1 := by rw [hm, hpar]
        rw [if_pos hif]
        rw [ih (e.tdiv 2) (by omega) (by omega) _ _ (Nat.mod_lt _ hb)
          (Nat.mod_lt _ hb)]
        rw [hxa', haa', mod_mul_pow_mod]
        have hsplit : e.toNat = 2 * (e.tdiv 2).toNat + 1 := by omega
        rw [hsplit]
        congr 1
        ring

/-- `modExp` computes `a ^ e % b` under the width assumption, except in
the degenerate case `b = 1, e = 0` (where the source returns the
accumulator 1 unreduced). -/
theorem modExp_eq_pow {b : ℕ} (hb : 0 < b) (hwidth : b * b ≤ U64) {e : ℤ}
    (he : 0 ≤ e) (hbe : 2 ≤ b ∨ 1 ≤ e) (a : ℕ) :
    modExp a e b = a ^ e.toNat % b := by
  by_cases hb2 : 2 ≤ b
  · unfold modExp
    rw [modExpLoop_eq hb hwidth e.toNat e le_rfl he (a % b) 1 (Nat.mod_lt _ hb)
      (by omega), one_mul, ← Nat.pow_mod]
  · have hb1 : b = 1 := by omega
    have he1 : 1 ≤ e := by omega
    subst hb1
    have h1 : modExp a e 1 < 1 := modExpLoop_lt (by omega) e.toNat e le_rfl he1 _ _
    omega

/-- For `b ≥ 2` the result of `modExp` is `< b` for *every* exponent
(including `e ≤ 0`, where the unreduced accumulator 1 is returned). -/
theorem modExp_lt {b : ℕ} (hb : 2 ≤ b) (a : ℕ) (e : ℤ) : modExp a e b < b := by
  by_cases he : 1 ≤ e
  · exact modExpLoop_lt (by omega) e.toNat e le_rfl he _ _
  · unfold modExp
    rw [modExpLoop_done _ _ _ _ (by omega)]
    omega

/-- With exponent 0 the loop never runs: `modExp` returns 1 for every
modulus, even `b = 1`. -/
theorem modExp_zero_exp (a b : ℕ) : modExp a 0 b = 1 :=
  modExpLoop_done _ _ _ _ le_rfl

/-! ## Correctness of `modInverse` -/

/-- One Euclidean step (with truncating remainder, on nonnegative
arguments) preserves the gcd. -/
theorem gcd_step (a b : ℤ) : Int.gcd b (a.tmod b) = Int.gcd a b := by
  have htt : b * a.tdiv b + a.tmod b = a := Int.tdiv_add_tmod a b
  apply Nat.dvd_antisymm
  · rw [← Int.natCast_dvd_natCast]
    apply Int.dvd_gcd
    · calc (↑(Int.gcd b (a.tmod b)) : ℤ) ∣ b * a.tdiv b + a.tmod b :=
        dvd_add (Dvd.dvd.mul_right Int.gcd_dvd_left _) Int.gcd_dvd_right
      _ = a := htt
    · exact Int.gcd_dvd_left
  · rw [← Int.natCast_dvd_natCast]
    apply Int.dvd_gcd
    · exact Int.gcd_dvd_right
    · have : (↑(Int.gcd a b) : ℤ) ∣ a - b * a.tdiv b :=
        dvd_sub Int.gcd_dvd_left (Dvd.dvd.mul_right Int.gcd_dvd_right _)
      calc (↑(Int.gcd a b) : ℤ) ∣ a - b * a.tdiv b := this
      _ = a.tmod b := by linarith

/-- Invariant-carrying correctness of the extended Euclidean loop, for
states reachable after the first iteration: `0 ≤ b < a`, `1 ≤ y`,
`0 ≤ d ≤ y`, the continuant identity `y * a + d * b = n0`, and the two
Bézout congruences with the alternating sign flag `i`.  The loop returns
the gcd in the first component, and a coefficient `d` with
`d * e0 ≡ i * gcd [ZMOD n0]` bounded by a cofactor of `n0`. -/
theorem egcdLoop_spec (e0 n0 : ℤ) :
    ∀ N : ℕ, ∀ a b d y i : ℤ, b.natAbs ≤ N →
      0 ≤ b → b < a → 1 ≤ y → 0 ≤ d → d ≤ y →
      y * a + d * b = n0 →
      d * e0 ≡ i * a [ZMOD n0] →
      y * e0 ≡ -i * b [ZMOD n0] →
      (i = 1 ∨ i = -1) →
      (egcdLoop a b d y i).1 = (Int.gcd a b : ℤ) ∧
      ((egcdLoop a b d y i).2.2 = 1 ∨ (egcdLoop a b d y i).2.2 = -1) ∧
      (egcdLoop a b d y i).2.1 * e0 ≡
        (egcdLoop a b d y i).2.2 * (egcdLoop a b d y i).1 [ZMOD n0] ∧
      0 ≤ (egcdLoop a b d y i).2.1 ∧
      ∃ yF : ℤ, (egcdLoop a b d y i).2.1 ≤ yF ∧ yF * (egcdLoop a b d y i).1 = n0 := by
  intro N
  induction N with
  | zero =>
    intro a b d y i hN hb0 hba hy hd0 hdy hlin hc1 hc2 hi
    have hbz : b = 0 := by omega
    subst hbz
    rw [egcdLoop_done]
    refine ⟨?_, hi, ?_, hd0, y, hdy, by linarith⟩
    · rw [Int.gcd_zero_right, Int.natAbs_of_nonneg (by omega)]
    · exact hc1
  | succ N ih =>
    intro a b d y i hN hb0 hba hy hd0 hdy hlin hc1 hc2 hi
    rcases eq_or_lt_of_le hb0 with hbz | hbpos
    · have hbz' : b = 0 := hbz.symm
      subst hbz'
      rw [egcdLoop_done]
      refine ⟨?_, hi, ?_, hd0, y, hdy, by linarith⟩
      · rw [Int.gcd_zero_right, Int.natAbs_of_nonneg (by omega)]
      · exact hc1
    · rw [egcdLoop_step a b d y i (by omega)]
      have htt : b * a.tdiv b + a.tmod b = a := Int.tdiv_add_tmod a b
      have ht0 : 0 ≤ a.tmod b := Int.tmod_nonneg b (by omega)
      have htb : a.tmod b < b := Int.tmod_lt_of_pos a hbpos
      have hbq : 0 < b * a.tdiv b := by omega
      have hq1 : 1 ≤ a.tdiv b := by
        by_contra hq
        push_neg at hq
        have : b * a.tdiv b ≤ b * 0 := by
          exact mul_le_mul_of_nonneg_left (by omega) (by omega)
        omega
      have hqy : y ≤ a.tdiv b * y := le_mul_of_one_le_left (by omega) hq1
      have H := ih b (a.tmod b) y (d + a.tdiv b * y) (-i)
        (by omega) ht0 htb (by omega) (by omega) (by omega)
        (by linear_combination hlin + y * htt)
        hc2
        ?_ ?_
      · rw [gcd_step a b] at H
        exact H
      · have h4 := hc1.add (hc2.mul_left (a.tdiv b))
        have e1 : (d + a.tdiv b * y) * e0 = d * e0 + a.tdiv b * (y * e0) := by
          ring
        have e2 : i * a + a.tdiv b * (-i * b) = - -i * (a.tmod b) := by
          linear_combination (-i) * htt
        rw [e1]
        exact e2 ▸ h4
      · rcases hi with h1 | h1
        · right
          rw [h1]
        · left
          rw [h1]
          ring

/-- After its first iteration the extended Euclidean loop of
`modInverse` is in the invariant state `(phiN, e tmod phiN, 0, 1, -1)`. -/
theorem modInverse_first_step {e phiN : ℤ} (hphi : 0 < phiN) :
    egcdLoop e phiN 1 0 1 = egcdLoop phiN (e.tmod phiN) 0 1 (-1) := by
  rw [egcdLoop_step e phiN 1 0 1 (by omega)]
  norm_num

/-- Bundle of `egcdLoop_spec` facts for the state reached after the
first iteration of `modInverse` on inputs `0 ≤ e`, `0 < phiN`. -/
theorem modInverse_loop_facts {e phiN : ℤ} (he : 0 ≤ e) (hphi : 0 < phiN) :
    (egcdLoop e phiN 1 0 1).1 = (Int.gcd e phiN : ℤ) ∧
    ((egcdLoop e phiN 1 0 1).2.2 = 1 ∨ (egcdLoop e phiN 1 0 1).2.2 = -1) ∧
    (egcdLoop e phiN 1 0 1).2.1 * e ≡
      (egcdLoop e phiN 1 0 1).2.2 * (egcdLoop e phiN 1 0 1).1 [ZMOD phiN] ∧
    0 ≤ (egcdLoop e phiN 1 0 1).2.1 ∧
    ∃ yF : ℤ, (egcdLoop e phiN 1 0 1).2.1 ≤ yF ∧
      yF * (egcdLoop e phiN 1 0 1).1 = phiN := by
  rw [modInverse_first_step hphi]
  have ht0 : 0 ≤ e.tmod phiN := Int.tmod_nonneg phiN he
  have htb : e.tmod phiN < phiN := Int.tmod_lt_of_pos e hphi
  have htt : phiN * e.tdiv phiN + e.tmod phiN = e := Int.tdiv_add_tmod e phiN
  have H := egcdLoop_spec e phiN (e.tmod phiN).natAbs phiN (e.tmod phiN) 0 1 (-1)
    le_rfl ht0 htb le_rfl le_rfl (by omega) (by ring)
    (by
      have : phiN ∣ (-1 : ℤ) * phiN - 0 * e := ⟨-1, by ring⟩
      exact (Int.modEq_iff_dvd.mpr this))
    (by
      have h1 : (1 : ℤ) * e = e := one_mul e
      have h2 : (- (-1) : ℤ) * (e.tmod phiN) = e.tmod phiN := by ring
      rw [h1, h2]
      have : phiN ∣ e.tmod phiN - e := ⟨-(e.tdiv phiN), by linarith⟩
      exact (Int.modEq_iff_dvd.mpr this).symm.symm)
    (Or.inr rfl)
  rw [gcd_step e phiN] at H
  exact H

/-- A modulus `≥ 2` cannot identify 0 and 1. -/
theorem not_modEq_zero_one {phiN : ℤ} (hphi : 2 ≤ phiN) :
    ¬ ((0 : ℤ) ≡ 1 [ZMOD phiN]) := by
  intro h
  have hdvd : phiN ∣ 1 - 0 := Int.modEq_iff_dvd.mp h
  have := Int.le_of_dvd (by norm_num) hdvd
  omega

/-- A modulus `≥ 2` cannot identify 0 and -1. -/
theorem not_modEq_zero_negone {phiN : ℤ} (hphi : 2 ≤ phiN) :
    ¬ ((0 : ℤ) ≡ -1 [ZMOD phiN]) := by
  intro h
  have hdvd : phiN ∣ -1 - 0 := Int.modEq_iff_dvd.mp h
  rw [show (-1 : ℤ) - 0 = -1 by ring] at hdvd
  have hdvd' : phiN ∣ (1 : ℤ) := (dvd_neg).mp hdvd
  have := Int.le_of_dvd (by norm_num) hdvd'
  omega

/-- Correctness of `modInverse` on the domain where the claim holds:
for `0 ≤ e`, `2 ≤ phiN` and `gcd(e, phiN) = 1` the result `d` satisfies
`e * d ≡ 1 (mod phiN)` and `0 ≤ d < phiN`. -/
theorem modInverse_spec {e phiN : ℤ} (he : 0 ≤ e) (hphi : 2 ≤ phiN)
    (hgcd : Int.gcd e phiN = 1) :
    e * modInverse e phiN ≡ 1 [ZMOD phiN] ∧
    0 ≤ modInverse e phiN ∧ modInverse e phiN < phiN := by
  obtain ⟨H1, H2, H3, H4, yF, H5, H6⟩ :=
    modInverse_loop_facts he (show (0:ℤ) < phiN by omega)
  simp only [modInverse]
  set r := egcdLoop e phiN 1 0 1 with hr
  have hr1 : r.1 = 1 := by rw [H1, hgcd]; norm_num
  have hyF : yF = phiN := by rw [hr1] at H6; linarith
  have hdle : r.2.1 ≤ phiN := hyF ▸ H5
  rw [hr1] at H3
  rw [if_neg (by simp [hr1])]
  rcases H2 with hi1 | hi1
  · rw [if_neg (by rw [hi1]; norm_num)]
    have hmul : e * r.2.1 ≡ 1 [ZMOD phiN] := by
      have := H3
      rw [hi1] at this
      rw [mul_comm]
      simpa using this
    refine ⟨hmul, H4, ?_⟩
    rcases eq_or_lt_of_le hdle with heq | hlt
    · exfalso
      apply not_modEq_zero_one hphi
      have hz : e * r.2.1 ≡ 0 [ZMOD phiN] :=
        Int.modEq_zero_iff_dvd.mpr ⟨e, by rw [heq]; ring⟩
      exact hz.symm.trans hmul
    · exact hlt
  · rw [if_pos (by rw [hi1]; norm_num)]
    have hmul : e * r.2.1 ≡ -1 [ZMOD phiN] := by
      have := H3
      rw [hi1] at this
      rw [mul_comm]
      simpa using this
    have hzero : e * phiN ≡ 0 [ZMOD phiN] :=
      Int.modEq_zero_iff_dvd.mpr ⟨e, by ring⟩
    have hres : e * (phiN - r.2.1) ≡ 1 [ZMOD phiN] := by
      have hsub := hzero.sub hmul
      rw [show e * phiN - e * r.2.1 = e * (phiN - r.2.1) by ring] at hsub
      rw [show (0 : ℤ) - -1 = 1 by ring] at hsub
      exact hsub
    refine ⟨hres, by omega, ?_⟩
    rcases eq_or_lt_of_le H4 with heq | hlt
    · exfalso
      apply not_modEq_zero_negone hphi
      have : e * r.2.1 = 0 := by rw [← heq]; ring
      rw [this] at hmul
      exact hmul
    · omega

/-- When `gcd(e, phiN) ≠ 1` (nonnegative inputs), `modInverse` returns
the sentinel value 0. -/
theorem modInverse_sentinel {e phiN : ℤ} (he : 0 ≤ e) (hphi : 0 ≤ phiN)
    (hgcd : Int.gcd e phiN ≠ 1) : modInverse e phiN = 0 := by
  rcases eq_or_lt_of_le hphi with hz | hpos
  · have hz' : phiN = 0 := hz.symm
    subst hz'
    simp only [modInverse]
    rw [egcdLoop_done]
    have hgcd0 : Int.gcd e 0 = e.natAbs := Int.gcd_zero_right e
    have hne : e ≠ 1 := by
      intro h1
      apply hgcd
      rw [h1]
      rfl
    rw [if_pos (by simpa using hne)]
  · obtain ⟨H1, _, _, _, _⟩ := modInverse_loop_facts he hpos
    simp only [modInverse]
    rw [if_pos ?_]
    rw [H1]
    intro h
    apply hgcd
    exact_mod_cast h

/-! ## Correctness of `primeFactors` on odd semiprimes -/

theorem stripTwos_step {x : ℕ} (h0 : x ≠ 0) (h2 : x % 2 = 0) :
    stripTwos x = stripTwos (x / 2) := by
  rw [stripTwos]
  simp [h0, h2]

theorem divideOut_dvd_step {x i : ℕ} (hi : 2 ≤ i) (h0 : x ≠ 0) (hdvd : i ∣ x) :
    divideOut x i =
      (i :: (divideOut (x / i) i).1, (divideOut (x / i) i).2) := by
  rw [divideOut]
  simp [hi, h0, Nat.mod_eq_zero_of_dvd hdvd]

/-- Dividing a single prime factor out of `p * m` when `p ∤ m`. -/
theorem divideOut_prime_once {p m : ℕ} (hp : p.Prime) (hm : ¬ p ∣ m)
    (hm0 : m ≠ 0) : divideOut (p * m) p = ([p], m) := by
  have h2 : 2 ≤ p := hp.two_le
  rw [divideOut_dvd_step h2 (by positivity) ⟨m, rfl⟩]
  rw [Nat.mul_div_cancel_left m (by omega)]
  rw [divideOut_not_dvd hm]

/-- Dividing out the square case `p * p` completely. -/
theorem divideOut_prime_sq {p : ℕ} (hp : p.Prime) :
    divideOut (p * p) p = ([p, p], 1) := by
  have h2 : 2 ≤ p := hp.two_le
  have hnd : ¬ p ∣ 1 := by
    intro h
    have := Nat.le_of_dvd (by norm_num) h
    omega
  rw [divideOut_dvd_step h2 (by positivity) ⟨p, rfl⟩]
  rw [Nat.mul_div_cancel_left p (by omega)]
  rw [divideOut_dvd_step h2 (by omega) dvd_rfl]
  rw [Nat.div_self (by omega)]
  rw [divideOut_not_dvd hnd]

theorem trialLoop_skip {x i : ℕ} (hnd : ¬ i ∣ x) (hle : i ≤ Nat.sqrt x) :
    trialLoop x i = trialLoop x (i + 2) := by
  rw [trialLoop_step hle, divideOut_not_dvd hnd]
  simp

/-- If no candidate divisor from `i` up to `√x` divides `x`, the trial
loop leaves `x` untouched and collects nothing. -/
theorem trialLoop_no_dvd :
    ∀ k i x : ℕ, Nat.sqrt x + 2 - i ≤ k →
      (∀ d, i ≤ d → d ≤ Nat.sqrt x → ¬ d ∣ x) → trialLoop x i = ([], x) := by
  intro k
  induction k with
  | zero =>
    intro i x hk hnd
    exact trialLoop_done (by omega)
  | succ k ih =>
    intro i x hk hnd
    rcases Nat.lt_or_ge (Nat.sqrt x) i with hlt | hge
    · exact trialLoop_done hlt
    · rw [trialLoop_skip (hnd i le_rfl hge) hge]
      exact ih (i + 2) x (by omega) (fun d hd1 hd2 => hnd d (by omega) hd2)

/-- Walking the trial loop from `i` to `j` (same parity, step 2) across
a divisor-free interval. -/
theorem trialLoop_skip_to :
    ∀ k i j x : ℕ, j - i = 2 * k → i ≤ j →
      (∀ d, i ≤ d → d < j → ¬ d ∣ x) → trialLoop x i = trialLoop x j := by
  intro k
  induction k with
  | zero =>
    intro i j x hk hij hnd
    have : i = j := by omega
    rw [this]
  | succ k ih =>
    intro i j x hk hij hnd
    have hij2 : i + 2 ≤ j := by omega
    rcases Nat.lt_or_ge (Nat.sqrt x) i with hlt | hge
    · rw [trialLoop_done hlt, trialLoop_done (by omega)]
    · rw [trialLoop_skip (hnd i le_rfl (by omega)) hge]
      exact ih (i + 2) j x (by omega) hij2
        (fun d hd1 hd2 => hnd d (by omega) hd2)

/-- No `d` with `2 ≤ d < p` divides a product of two primes `p ≤ q`. -/
theorem no_small_divisor {p q d : ℕ} (hp : p.Prime) (hq : q.Prime)
    (hple : p ≤ q) (h2 : 2 ≤ d) (hlt : d < p) : ¬ d ∣ p * q := by
  intro hdvd
  have hm : d.minFac ∣ p * q := dvd_trans (Nat.minFac_dvd d) hdvd
  have hmp : d.minFac.Prime := Nat.minFac_prime (by omega)
  have hle := Nat.minFac_le (show 0 < d by omega)
  rcases (Nat.Prime.dvd_mul hmp).mp hm with h | h
  · have := (Nat.prime_dvd_prime_iff_eq hmp hp).mp h
    omega
  · have := (Nat.prime_dvd_prime_iff_eq hmp hq).mp h
    omega

/-- The factor sequence collected for a product of two odd primes
`p ≤ q` is exactly `[p, q]`. -/
theorem factorSeq_semiprime {p q : ℕ} (hp : p.Prime) (hq : q.Prime)
    (hp2 : p ≠ 2) (hq2 : q ≠ 2) (hpq : p ≤ q) :
    factorSeq (p * q) = [p, q] := by
  have hp3 : 3 ≤ p := by
    have := hp.two_le
    omega
  have hq3 : 3 ≤ q := by
    have := hq.two_le
    omega
  have hpodd : p % 2 = 1 := Nat.odd_iff.mp (hp.odd_of_ne_two hp2)
  have hqodd : q % 2 = 1 := Nat.odd_iff.mp (hq.odd_of_ne_two hq2)
  have hnodd : (p * q) % 2 = 1 :=
    Nat.odd_iff.mp (Odd.mul (hp.odd_of_ne_two hp2) (hq.odd_of_ne_two hq2))
  have hsq : p ≤ Nat.sqrt (p * q) :=
    Nat.le_sqrt.mpr (Nat.mul_le_mul_left p hpq)
  have hwalk : trialLoop (p * q) 3 = trialLoop (p * q) p := by
    apply trialLoop_skip_to ((p - 3) / 2) 3 p (p * q) (by omega) hp3
    intro d hd1 hd2
    exact no_small_divisor hp hq hpq (by omega) hd2
  unfold factorSeq
  rw [stripTwos_odd hnodd, hwalk]
  rcases eq_or_lt_of_le hpq with heq | hlt
  · subst heq
    rw [trialLoop_step hsq, divideOut_prime_sq hp]
    rw [trialLoop_done (by rw [Nat.sqrt_one]; omega : Nat.sqrt 1 < p + 2)]
    norm_num
  · have hnd : ¬ p ∣ q := by
      intro h
      have := (Nat.prime_dvd_prime_iff_eq hp hq).mp h
      omega
    rw [trialLoop_step hsq, divideOut_prime_once hp hnd (by omega)]
    rw [trialLoop_no_dvd (Nat.sqrt q + 2) (p + 2) q (by omega) ?_]
    · simp
      omega
    · intro d hd1 hd2 hdvd
      rcases (Nat.Prime.eq_one_or_self_of_dvd hq d hdvd) with h1 | h1
      · omega
      · have : Nat.sqrt q < q := Nat.sqrt_lt_self (by omega)
        omega

/-- `primeFactors` on a product of two odd primes `p ≤ q` returns the
pair `(p, q)`: smaller factor first, both prime, product `= n`. -/
theorem primeFactors_semiprime {p q : ℕ} (hp : p.Prime) (hq : q.Prime)
    (hp2 : p ≠ 2) (hq2 : q ≠ 2) (hpq : p ≤ q) :
    primeFactors (p * q) = some (p, q) := by
  unfold primeFactors
  rw [factorSeq_semiprime hp hq hp2 hq2 hpq]

/-! ## The two scan loops -/

/-- The brute-force scan returns the first match. -/
theorem attack1Loop_found (e n c : ℤ) :
    ∀ k : ℕ, ∀ m0 m : ℤ, (m - m0).toNat ≤ k → m0 ≤ m → m < n →
      modExp (toU64 m) e (toU64 n) = toU64 c →
      (∀ j, m0 ≤ j → j < m → modExp (toU64 j) e (toU64 n) ≠ toU64 c) →
      attack1Loop e n c m0 = m := by
  intro k
  induction k with
  | zero =>
    intro m0 m hk h0 hn htest _
    have hm : m0 = m := by omega
    subst hm
    rw [attack1Loop_step _ _ _ _ hn, if_pos htest]
  | succ k ih =>
    intro m0 m hk h0 hn htest hmiss
    rcases eq_or_lt_of_le h0 with heq | hlt
    · subst heq
      rw [attack1Loop_step _ _ _ _ hn, if_pos htest]
    · rw [attack1Loop_step _ _ _ _ (by omega), if_neg (hmiss m0 le_rfl hlt)]
      exact ih (m0 + 1) m (by omega) (by omega) hn htest
        (fun j hj1 hj2 => hmiss j (by omega) hj2)

/-- If no candidate in `[m0, n)` matches, the brute-force scan returns
the sentinel `-1`. -/
theorem attack1Loop_exhaust (e n c : ℤ) :
    ∀ k : ℕ, ∀ m0 : ℤ, (n - m0).toNat ≤ k →
      (∀ j, m0 ≤ j → j < n → modExp (toU64 j) e (toU64 n) ≠ toU64 c) →
      attack1Loop e n c m0 = -1 := by
  intro k
  induction k with
  | zero =>
    intro m0 hk hmiss
    exact attack1Loop_done e n c m0 (by omega)
  | succ k ih =>
    intro m0 hk hmiss
    rcases Int.lt_or_le m0 n with hlt | hge
    · rw [attack1Loop_step _ _ _ _ hlt, if_neg (hmiss m0 le_rfl hlt)]
      exact ih (m0 + 1) (by omega) (fun j hj1 hj2 => hmiss j (by omega) hj2)
    · exact attack1Loop_done e n c m0 (by omega)

/-- The closing scan of `attack2` returns exactly `ptext` whenever
`ptext < n` (for an in-range modulus `n ≤ 2 ^ 63`). -/
theorem attack2Scan_found (n : ℤ) (ptext : ℕ) (hn : n ≤ 2 ^ 63) :
    ∀ k : ℕ, ∀ m0 : ℤ, ((ptext : ℤ) - m0).toNat ≤ k →
      0 ≤ m0 → m0 ≤ (ptext : ℤ) → (ptext : ℤ) < n →
      attack2Scan ptext n m0 = (ptext : ℤ) := by
  intro k
  induction k with
  | zero =>
    intro m0 hk h0 hle hlt
    have hm : m0 = (ptext : ℤ) := by omega
    subst hm
    rw [attack2Scan_step _ _ _ hlt, if_pos ?_]
    have := toU64_of_nonneg (show (0:ℤ) ≤ (ptext : ℤ) by positivity)
      (by omega)
    omega
  | succ k ih =>
    intro m0 hk h0 hle hlt
    rcases eq_or_lt_of_le hle with heq | hlt2
    · subst heq
      rw [attack2Scan_step _ _ _ hlt, if_pos ?_]
      have := toU64_of_nonneg h0 (by omega)
      omega
    · rw [attack2Scan_step _ _ _ (by omega), if_neg ?_]
      · exact ih (m0 + 1) (by omega) (by omega) (by omega) hlt
      · have := toU64_of_nonneg h0 (by omega)
        intro hcontra
        omega

/-! ## RSA arithmetic (Fermat / Euler round trip) -/

/-- For a prime `p` and exponent `k = 1 + (p-1) * s`, `x ^ k ≡ x (mod p)`
for every natural `x` (both the coprime and the `p ∣ x` cases). -/
theorem pow_prime_identity {p : ℕ} (hp : p.Prime) {k s : ℕ}
    (hks : k = 1 + (p - 1) * s) : ∀ x : ℕ, x ^ k ≡ x [MOD p] := by
  intro x
  by_cases hdvd : p ∣ x
  · have h1 : x ≡ 0 [MOD p] := (Nat.modEq_zero_iff_dvd).mpr hdvd
    have h2 : x ^ k ≡ 0 [MOD p] :=
      (Nat.modEq_zero_iff_dvd).mpr (dvd_pow hdvd (by omega))
    exact h2.trans h1.symm
  · have hcop : x.Coprime p :=
      ((Nat.Prime.coprime_iff_not_dvd hp).mpr hdvd).symm
    have heuler : x ^ p.totient ≡ 1 [MOD p] := Nat.ModEq.pow_totient hcop
    rw [Nat.totient_prime hp] at heuler
    have hpows : (x ^ (p - 1)) ^ s ≡ 1 ^ s [MOD p] := heuler.pow s
    have hfin : x * (x ^ (p - 1)) ^ s ≡ x * 1 ^ s [MOD p] :=
      hpows.mul_left x
    calc x ^ k = x * (x ^ (p - 1)) ^ s := by
          rw [hks, pow_add, pow_mul, pow_one]
      _ ≡ x * 1 ^ s [MOD p] := hfin
      _ = x := by rw [one_pow, mul_one]

/-- RSA round-trip identity: if `n = p * q` is a product of two distinct
primes and `k ≡ 1 (mod (p-1)(q-1))` with `k ≥ 1`, then `x ^ k ≡ x (mod n)`
for every `x`. -/
theorem rsa_pow_identity {p q : ℕ} (hp : p.Prime) (hq : q.Prime)
    (hpq : p ≠ q) {k : ℕ} (hk : 1 ≤ k)
    (hmod : k ≡ 1 [MOD (p - 1) * (q - 1)]) :
    ∀ x : ℕ, x ^ k ≡ x [MOD p * q] := by
  intro x
  have hdvd : (p - 1) * (q - 1) ∣ k - 1 := (Nat.modEq_iff_dvd' hk).mp hmod.symm
  obtain ⟨t, ht⟩ := hdvd
  have hkp : k = 1 + (p - 1) * ((q - 1) * t) := by
    rw [← mul_assoc]
    omega
  have hkq : k = 1 + (q - 1) * ((p - 1) * t) := by
    rw [← mul_assoc, mul_comm (q-1) (p-1)]
    omega
  have hcop : Nat.Coprime p q := (Nat.coprime_primes hp hq).mpr hpq
  exact (Nat.modEq_and_modEq_iff_modEq_mul hcop).mp
    ⟨pow_prime_identity hp hkp x, pow_prime_identity hq hkq x⟩

/-! ## Glue: `modInverse` over ℕ inputs, RSA injectivity -/

theorem totient_cast {p q : ℕ} (hp : 1 ≤ p) (hq : 1 ≤ q) :
    totient (p : ℤ) (q : ℤ) = (((p - 1) * (q - 1) : ℕ) : ℤ) := by
  unfold totient
  push_cast [hp, hq]
  ring

theorem phi_ge_two {p q : ℕ} (hp3 : 3 ≤ p) (hq3 : 3 ≤ q) :
    2 ≤ (p - 1) * (q - 1) := by
  have : 2 * 2 ≤ (p - 1) * (q - 1) := Nat.mul_le_mul (by omega) (by omega)
  omega

/-- `modInverse` on natural inputs: existence and properties of the
private exponent `d` in ℕ terms. -/
theorem modInverse_nat_facts {p q e : ℕ} (hp3 : 3 ≤ p) (hq3 : 3 ≤ q)
    (hgcd : Nat.gcd e ((p - 1) * (q - 1)) = 1) :
    ∃ dN : ℕ, modInverse (e : ℤ) (totient (p : ℤ) (q : ℤ)) = (dN : ℤ) ∧
      e * dN ≡ 1 [MOD (p - 1) * (q - 1)] ∧
      1 ≤ dN ∧ dN < (p - 1) * (q - 1) := by
  have hφ2 : 2 ≤ (p - 1) * (q - 1) := phi_ge_two hp3 hq3
  have htc : totient (p : ℤ) (q : ℤ) = (((p - 1) * (q - 1) : ℕ) : ℤ) :=
    totient_cast (by omega) (by omega)
  obtain ⟨hcong, hd0, hdlt⟩ := @modInverse_spec (e : ℤ)
    (totient (p : ℤ) (q : ℤ)) (by positivity)
    (by rw [htc]; exact_mod_cast hφ2)
    (by rw [htc, Int.gcd_natCast_natCast]; exact hgcd)
  refine ⟨(modInverse (e : ℤ) (totient (p : ℤ) (q : ℤ))).toNat,
    (Int.toNat_of_nonneg hd0).symm, ?_, ?_, ?_⟩
  · rw [← Int.natCast_modEq_iff]
    have hsplit : ((e * (modInverse (e : ℤ) (totient (p : ℤ) (q : ℤ))).toNat
        : ℕ) : ℤ) = (e : ℤ) * modInverse (e : ℤ) (totient (p : ℤ) (q : ℤ)) := by
      push_cast [Int.toNat_of_nonneg hd0]
      ring
    rw [hsplit, Nat.cast_one, ← htc]
    exact hcong
  · by_contra hz
    push_neg at hz
    have hz0 : modInverse (e : ℤ) (totient (p : ℤ) (q : ℤ)) = 0 := by omega
    rw [hz0, mul_zero] at hcong
    refine not_modEq_zero_one ?_ hcong
    rw [htc]
    exact_mod_cast hφ2
  · have h9 := lt_of_lt_of_eq hdlt htc
    omega

/-- RSA encryption is injective on `[0, p*q)` when `p ≠ q` are primes
and `e * d ≡ 1 (mod (p-1)(q-1))`. -/
theorem rsa_encrypt_inj {p q e d : ℕ} (hp : p.Prime) (hq : q.Prime)
    (hpq : p ≠ q) (hed : e * d ≡ 1 [MOD (p - 1) * (q - 1)])
    (hed1 : 1 ≤ e * d) {x y : ℕ} (hx : x < p * q) (hy : y < p * q)
    (hxy : x ^ e ≡ y ^ e [MOD p * q]) : x = y := by
  have h1 : x ^ (e * d) ≡ y ^ (e * d) [MOD p * q] := by
    rw [pow_mul, pow_mul]
    exact hxy.pow d
  have h2 := rsa_pow_identity hp hq hpq hed1 hed x
  have h3 := rsa_pow_identity hp hq hpq hed1 hed y
  have h4 : x ≡ y [MOD p * q] := (h2.symm.trans h1).trans h3
  unfold Nat.ModEq at h4
  rw [Nat.mod_eq_of_lt hx, Nat.mod_eq_of_lt hy] at h4
  exact h4

theorem toU64_natCast {x : ℕ} (h : x < 2 ^ 64) : toU64 (x : ℤ) = x := by
  have h1 := toU64_of_nonneg (show (0:ℤ) ≤ (x:ℤ) by positivity)
    (by exact_mod_cast h)
  omega

theorem toU64_eq_toNat {j : ℤ} (h0 : 0 ≤ j) (h1 : j < 2 ^ 64) :
    toU64 j = j.toNat := by
  have := toU64_of_nonneg h0 h1
  omega

theorem width_bounds {n : ℕ} (hw : n * n ≤ 2 ^ 64) : n ≤ 2 ^ 32 := by
  by_contra h
  push_neg at h
  have := Nat.mul_lt_mul'' h h
  omega

/-- Evaluation of the brute-force test expression at an in-range
candidate `j`. -/
theorem modExp_toU64_eval {n : ℕ} (hn2 : 2 ≤ n) (hnw : n * n ≤ 2 ^ 64)
    (e : ℕ) (j : ℤ) (hj0 : 0 ≤ j) (hjn : j < (n : ℤ)) :
    modExp (toU64 j) (e : ℤ) (toU64 (n : ℤ)) = j.toNat ^ e % n := by
  have hn32 : n ≤ 2 ^ 32 := width_bounds hnw
  have hnlt : n < 2 ^ 64 := by omega
  rw [toU64_natCast hnlt]
  rw [toU64_eq_toNat hj0 (by exact_mod_cast lt_of_lt_of_le hjn (by exact_mod_cast hnlt.le))]
  rw [modExp_eq_pow (by omega) (by unfold U64; exact hnw) (by positivity)
    (Or.inl hn2)]
  rw [Int.toNat_natCast]

/-- Round-trip correctness of the brute-force attack for odd distinct
primes (64-bit width assumption on `n²`). -/
theorem attack1_roundtrip {p q e m : ℕ} (hp : p.Prime) (hq : q.Prime)
    (hp2 : p ≠ 2) (hq2 : q ≠ 2) (hplt : p < q)
    (hwidth : (p * q) * (p * q) ≤ 2 ^ 64) (he : 1 ≤ e)
    (hgcd : Nat.gcd e ((p - 1) * (q - 1)) = 1) (hm : m < p * q) :
    attack1 (e : ℤ) ((p * q : ℕ) : ℤ) ((m ^ e % (p * q) : ℕ) : ℤ) = (m : ℤ) := by
  have hp3 : 3 ≤ p := by have := hp.two_le; omega
  have hq3 : 3 ≤ q := by have := hq.two_le; omega
  have hn2 : 2 ≤ p * q := by
    calc 2 ≤ 3 * 3 := by norm_num
    _ ≤ p * q := Nat.mul_le_mul hp3 hq3
  have hn64 : p * q < 2 ^ 64 := by
    have := width_bounds hwidth
    omega
  have hclt : m ^ e % (p * q) < p * q := Nat.mod_lt _ (by omega)
  obtain ⟨dN, hdEq, hdCong, hd1, hdlt⟩ := modInverse_nat_facts hp3 hq3 hgcd
  have hed1 : 1 ≤ e * dN := by
    calc 1 = 1 * 1 := by norm_num
    _ ≤ e * dN := Nat.mul_le_mul he hd1
  unfold attack1
  apply attack1Loop_found (e : ℤ) ((p * q : ℕ) : ℤ) ((m ^ e % (p * q) : ℕ) : ℤ)
    m 0 (m : ℤ) (by omega) (by positivity) (by exact_mod_cast hm)
  · rw [modExp_toU64_eval hn2 hwidth e (m : ℤ) (by positivity)
      (by exact_mod_cast hm)]
    rw [Int.toNat_natCast, toU64_natCast (by omega)]
  · intro j hj0 hjm
    rw [modExp_toU64_eval hn2 hwidth e j hj0
      (by exact_mod_cast lt_of_lt_of_le hjm (by exact_mod_cast hm.le))]
    rw [toU64_natCast (by omega)]
    intro hcontra
    have hjnat : j.toNat < m := by omega
    have hmodeq : j.toNat ^ e ≡ m ^ e [MOD p * q] := hcontra
    have := rsa_encrypt_inj hp hq (by omega) hdCong hed1
      (show j.toNat < p * q by omega) hm hmodeq
    omega

/-- Round-trip correctness of the factoring attack for odd distinct
primes `p < q` (64-bit width assumption on `n²`): `attack2` returns the
plaintext together with the factor pair (smaller first) and the derived
private exponent. -/
theorem attack2_roundtrip {p q e m : ℕ} (hp : p.Prime) (hq : q.Prime)
    (hp2 : p ≠ 2) (hq2 : q ≠ 2) (hplt : p < q)
    (hwidth : (p * q) * (p * q) ≤ 2 ^ 64) (he : 1 ≤ e)
    (hgcd : Nat.gcd e ((p - 1) * (q - 1)) = 1) (hm : m < p * q) :
    attack2 (e : ℤ) ((p * q : ℕ) : ℤ) ((m ^ e % (p * q) : ℕ) : ℤ) =
      some ((m : ℤ), (p : ℤ), (q : ℤ),
        modInverse (e : ℤ) (totient (p : ℤ) (q : ℤ))) := by
  have hp3 : 3 ≤ p := by have := hp.two_le; omega
  have hq3 : 3 ≤ q := by have := hq.two_le; omega
  have hn2 : 2 ≤ p * q := by
    calc 2 ≤ 3 * 3 := by norm_num
    _ ≤ p * q := Nat.mul_le_mul hp3 hq3
  have hn32 : p * q ≤ 2 ^ 32 := width_bounds hwidth
  have hn64 : p * q < 2 ^ 64 := by omega
  have hclt : m ^ e % (p * q) < p * q := Nat.mod_lt _ (by omega)
  obtain ⟨dN, hdEq, hdCong, hd1, hdlt⟩ := modInverse_nat_facts hp3 hq3 hgcd
  have hed1 : 1 ≤ e * dN := by
    calc 1 = 1 * 1 := by norm_num
    _ ≤ e * dN := Nat.mul_le_mul he hd1
  have hpf : primeFactors (((p * q : ℕ) : ℤ)).toNat = some (p, q) := by
    rw [Int.toNat_natCast]
    exact primeFactors_semiprime hp hq hp2 hq2 (le_of_lt hplt)
  -- the decrypted value: modExp (toU64 c) d (toU64 n) = m
  have hptext : modExp (toU64 ((m ^ e % (p * q) : ℕ) : ℤ))
      (modInverse (e : ℤ) (totient (p : ℤ) (q : ℤ)))
      (toU64 ((p * q : ℕ) : ℤ)) = m := by
    rw [toU64_natCast hn64, toU64_natCast (by omega), hdEq]
    rw [modExp_eq_pow (by omega) (by unfold U64; exact hwidth)
      (by positivity) (Or.inl hn2)]
    rw [Int.toNat_natCast]
    have hstep1 : m ^ e % (p * q) ≡ m ^ e [MOD p * q] := Nat.mod_modEq _ _
    have hstep2 : (m ^ e % (p * q)) ^ dN ≡ (m ^ e) ^ dN [MOD p * q] :=
      hstep1.pow dN
    have hstep3 : (m ^ e) ^ dN = m ^ (e * dN) := (pow_mul m e dN).symm
    have hstep4 : m ^ (e * dN) ≡ m [MOD p * q] :=
      rsa_pow_identity hp hq (by omega) hed1 hdCong m
    have hfin : (m ^ e % (p * q)) ^ dN ≡ m [MOD p * q] :=
      (hstep2.trans (hstep3 ▸ Nat.ModEq.refl _)).trans hstep4
    calc (m ^ e % (p * q)) ^ dN % (p * q)
        = m % (p * q) := hfin
      _ = m := Nat.mod_eq_of_lt hm
  simp only [attack2]
  rw [hpf]
  show some (attack2Scan (modExp (toU64 ((m ^ e % (p * q) : ℕ) : ℤ))
      (modInverse (e : ℤ) (totient (p : ℤ) (q : ℤ)))
      (toU64 ((p * q : ℕ) : ℤ))) ((p * q : ℕ) : ℤ) 0,
      (p : ℤ), (q : ℤ), modInverse (e : ℤ) (totient (p : ℤ) (q : ℤ))) = _
  rw [hptext]
  have hscan : attack2Scan m ((p * q : ℕ) : ℤ) 0 = (m : ℤ) :=
    attack2Scan_found _ m (by exact_mod_cast by omega : ((p * q : ℕ) : ℤ) ≤ 2 ^ 63)
      m 0 (by omega) le_rfl (by positivity) (by exact_mod_cast hm)
  rw [hscan]

/-- `attack1` returns the sentinel `-1` when no candidate matches. -/
theorem attack1_exhaust (e n c : ℤ)
    (h : ∀ m : ℤ, 0 ≤ m → m < n → modExp (toU64 m) e (toU64 n) ≠ toU64 c) :
    attack1 e n c = -1 := by
  unfold attack1
  exact attack1Loop_exhaust e n c n.toNat 0 (by omega)
    (fun j hj0 hjn => h j hj0 hjn)

/-- When `gcd(e, φ(n)) ≠ 1`, `attack2` does not fail: `modInverse`
returns the sentinel 0, `modExp(c, 0, n)` returns 1, and the attack
reports plaintext 1 with `d = 0`. -/
theorem attack2_no_inverse {p q : ℕ} (hp : p.Prime) (hq : q.Prime)
    (hp2 : p ≠ 2) (hq2 : q ≠ 2) (hpq : p ≤ q) (hn63 : p * q < 2 ^ 63)
    (e c : ℤ) (he : 0 ≤ e)
    (hgcd : Int.gcd e (totient (p : ℤ) (q : ℤ)) ≠ 1) :
    attack2 e ((p * q : ℕ) : ℤ) c = some (1, (p : ℤ), (q : ℤ), 0) := by
  have hp3 : 3 ≤ p := by have := hp.two_le; omega
  have hq3 : 3 ≤ q := by have := hq.two_le; omega
  have hn9 : 9 ≤ p * q := by
    calc 9 = 3 * 3 := by norm_num
    _ ≤ p * q := Nat.mul_le_mul hp3 hq3
  have hpf : primeFactors (((p * q : ℕ) : ℤ)).toNat = some (p, q) := by
    rw [Int.toNat_natCast]
    exact primeFactors_semiprime hp hq hp2 hq2 hpq
  have hp1 : (1 : ℤ) ≤ (p : ℤ) := by exact_mod_cast by omega
  have hq1 : (1 : ℤ) ≤ (q : ℤ) := by exact_mod_cast by omega
  have hφ0 : 0 ≤ totient (p : ℤ) (q : ℤ) := by
    unfold totient
    have h1 : (0 : ℤ) ≤ (p : ℤ) - 1 := by omega
    have h2 : (0 : ℤ) ≤ (q : ℤ) - 1 := by omega
    exact mul_nonneg h1 h2
  have hd0 : modInverse e (totient (p : ℤ) (q : ℤ)) = 0 :=
    modInverse_sentinel he hφ0 hgcd
  simp only [attack2]
  rw [hpf]
  show some (attack2Scan (modExp (toU64 c)
      (modInverse e (totient (p : ℤ) (q : ℤ))) (toU64 ((p * q : ℕ) : ℤ)))
      ((p * q : ℕ) : ℤ) 0, (p : ℤ), (q : ℤ),
      modInverse e (totient (p : ℤ) (q : ℤ))) = _
  rw [hd0, modExp_zero_exp]
  have hscan : attack2Scan 1 ((p * q : ℕ) : ℤ) 0 = ((1 : ℕ) : ℤ) :=
    attack2Scan_found _ 1 (by exact_mod_cast by omega) 1 0 (by norm_num)
      (by norm_num) (by norm_num) (by exact_mod_cast by omega)
  rw [hscan]
  norm_num

/-- The decrypted value of `attack2` is always `< n` (for `n ≥ 2`), so
the closing scan finds it and the `-1` branch is dead. -/
theorem attack2_scan_equiv (c d n : ℤ) (hn : 2 ≤ n) (hn63 : n < 2 ^ 63) :
    modExp (toU64 c) d (toU64 n) < n.toNat ∧
    attack2Scan (modExp (toU64 c) d (toU64 n)) n 0 =
      ((modExp (toU64 c) d (toU64 n) : ℕ) : ℤ) ∧
    attack2Scan (modExp (toU64 c) d (toU64 n)) n 0 ≠ -1 := by
  have hb : toU64 n = n.toNat := toU64_eq_toNat (by omega) (by omega)
  have h2b : 2 ≤ toU64 n := by omega
  have hlt : modExp (toU64 c) d (toU64 n) < toU64 n := modExp_lt h2b _ _
  have hlt' : modExp (toU64 c) d (toU64 n) < n.toNat := by omega
  have hscan := attack2Scan_found n (modExp (toU64 c) d (toU64 n))
    (by omega) (modExp (toU64 c) d (toU64 n)) 0 (by omega) le_rfl
    (by positivity) (by omega)
  refine ⟨hlt', hscan, ?_⟩
  rw [hscan]
  have h0 : (0 : ℤ) ≤ ((modExp (toU64 c) d (toU64 n) : ℕ) : ℤ) := by positivity
  omega

/-! ## Claim theorems -/

/-- C3 (counterexample): the claim quantifies over *every* `e, phiN`
with `gcd(e, phiN) = 1`, but at `e = 1, phiN = 1` the code returns
`d = 1`, violating the claimed bound `d < phiN`. -/
theorem C3_counterexample :
    Int.gcd 1 1 = 1 ∧ modInverse 1 1 = 1 ∧ ¬ modInverse 1 1 < 1 := by
  have h : modInverse 1 1 = 1 := by
    simp [modInverse, egcdLoop_step, egcdLoop_done, Int.tmod_eq_emod,
      Int.tdiv_eq_ediv]
  refine ⟨by norm_num, h, ?_⟩
  rw [h]
  norm_num

/-- C3 (amended): for every `e ≥ 0` and `phiN ≥ 2` with
`gcd(e, phiN) = 1`, the value `d = modInverse e phiN` satisfies
`e * d ≡ 1 (mod phiN)` and `0 ≤ d < phiN`.  (The claim as stated fails
only at the degenerate moduli `phiN ∈ {0, 1}` and at negative inputs,
which are not meaningful totients.) -/
theorem C3_inverse_correct {e phiN : ℤ} (he : 0 ≤ e) (hphi : 2 ≤ phiN)
    (hgcd : Int.gcd e phiN = 1) :
    e * modInverse e phiN ≡ 1 [ZMOD phiN] ∧
    0 ≤ modInverse e phiN ∧ modInverse e phiN < phiN :=
  modInverse_spec he hphi hgcd

/-- C3 (witness): the RSA textbook instance `e = 17`, `phiN = 3120`. -/
theorem C3_inverse_correct_witness :
    (17 : ℤ) * modInverse 17 3120 ≡ 1 [ZMOD 3120] ∧
    0 ≤ modInverse 17 3120 ∧ modInverse 17 3120 < 3120 :=
  C3_inverse_correct (by norm_num) (by norm_num) (by norm_num)

/-- C4 (counterexample): at `(e, phiN) = (2, 4)` (gcd 2 ≠ 1) the code
does not signal an explicit `NoModularInverse` error value: it returns
the sentinel magic number 0 through its ordinary `long long` result. -/
theorem C4_counterexample : Int.gcd 2 4 ≠ 1 ∧ modInverse 2 4 = 0 := by
  constructor
  · norm_num
  · simp [modInverse, egcdLoop_step, egcdLoop_done, Int.tmod_eq_emod,
      Int.tdiv_eq_ediv]

/-- C4 (amended): whenever `gcd(e, phiN) ≠ 1` (nonnegative inputs),
`modInverse` reports the failure by returning the sentinel value 0 —
not by an explicit error result. -/
theorem C4_sentinel {e phiN : ℤ} (he : 0 ≤ e) (hphi : 0 ≤ phiN)
    (hgcd : Int.gcd e phiN ≠ 1) : modInverse e phiN = 0 :=
  modInverse_sentinel he hphi hgcd

/-- C4 (witness): the claim's own instance `modInverse(2, 4)`. -/
theorem C4_sentinel_witness : modInverse 2 4 = 0 :=
  C4_sentinel (by norm_num) (by norm_num) (by norm_num)

/-- C5 (counterexample): `6 = 2 * 3` is a semiprime, but `primeFactors`
strips the factor 2 without collecting it, leaving a single-element
factor sequence; the C++ code then indexes `res[1]` out of bounds
(modelled as `none`), so no factor pair `(p, q)` with `p * q = 6` is
returned. -/
theorem C5_counterexample :
    Nat.Prime 2 ∧ Nat.Prime 3 ∧ primeFactors (2 * 3) = none := by
  refine ⟨by norm_num, by norm_num, ?_⟩
  have s3 : Nat.sqrt 3 = 1 := sqrt_eq_of (by norm_num) (by norm_num)
  simp [primeFactors, factorSeq, stripTwos, trialLoop, divideOut, s3]

/-- C5 (amended): for every semiprime `n = p * q` with both prime
factors odd (`p ≤ q`), `primeFactors n` returns the pair `(p, q)`:
product `n`, both prime, smaller factor found first by ascending trial
order.  (Semiprimes with the even prime factor 2 hit out-of-bounds
indexing instead, because the factor-2 stripping loop discards 2s.) -/
theorem C5_factor_correct {p q : ℕ} (hp : p.Prime) (hq : q.Prime)
    (hp2 : p ≠ 2) (hq2 : q ≠ 2) (hpq : p ≤ q) :
    primeFactors (p * q) = some (p, q) :=
  primeFactors_semiprime hp hq hp2 hq2 hpq

/-- C5 (witness): the RSA textbook modulus `3233 = 53 * 61`. -/
theorem C5_factor_correct_witness : primeFactors (53 * 61) = some (53, 61) :=
  C5_factor_correct (by norm_num) (by norm_num) (by norm_num) (by norm_num)
    (by norm_num)

/-- C6 (counterexample): `105 = 3 * 5 * 7` produces a collected factor
sequence of length 3 (not exactly two), yet the code produces the factor
pair `(3, 5)` — silently wrong, `3 * 5 ≠ 105` — instead of signalling
`MalformedModulus`. -/
theorem C6_counterexample :
    (factorSeq 105).length ≠ 2 ∧ primeFactors 105 = some (3, 5) := by
  have s105 : Nat.sqrt 105 = 10 := sqrt_eq_of (by norm_num) (by norm_num)
  have s35 : Nat.sqrt 35 = 5 := sqrt_eq_of (by norm_num) (by norm_num)
  have s7 : Nat.sqrt 7 = 2 := sqrt_eq_of (by norm_num) (by norm_num)
  have h : factorSeq 105 = [3, 5, 7] := by
    simp [factorSeq, stripTwos, trialLoop, divideOut, s105, s35, s7]
  constructor
  · rw [h]
    norm_num
  · unfold primeFactors
    rw [h]

/-- C6 (amended): the factorizer has no error signalling.  It fails to
produce a pair (out-of-bounds indexing, modelled `none`) exactly when
the collected sequence has *fewer* than two elements; when the sequence
has two or more elements (including malformed moduli with more than two
prime factors) it silently returns the first two collected factors. -/
theorem C6_malformed (n : ℕ) :
    primeFactors n = none ↔ (factorSeq n).length < 2 := by
  unfold primeFactors
  rcases hfs : factorSeq n with _ | ⟨a, _ | ⟨b, l⟩⟩ <;> simp

/-- C9 (counterexample): the claim includes every modulus `b ≥ 1`, but
at `b = 1, e = 0` the loop never runs and `modExp` returns the
unreduced accumulator 1, while `a ^ 0 mod 1 = 0`. -/
theorem C9_counterexample : modExp 5 0 1 = 1 ∧ 5 ^ 0 % 1 = 0 := by
  constructor
  · exact modExp_zero_exp 5 1
  · norm_num

/-- C9 (amended): for every 64-bit base `a`, exponent `e ≥ 0` and
modulus `b ≥ 1` with `b² ≤ 2⁶⁴`, except the degenerate combination
`b = 1 ∧ e = 0`, `modExp a e b = a ^ e mod b`; in particular
`modExp(a,0,m) = 1` for `m > 1` and `modExp(a,1,m) = a mod m`. -/
theorem C9_modexp_correct {a : ℕ} (_ha : a < 2 ^ 64) {e : ℤ} (he : 0 ≤ e)
    {b : ℕ} (hb : 1 ≤ b) (hw : b * b ≤ 2 ^ 64) (hbe : 2 ≤ b ∨ 1 ≤ e) :
    modExp a e b = a ^ e.toNat % b :=
  modExp_eq_pow (by omega) (by unfold U64; exact hw) he hbe a

/-- C9 (witness): `65 ^ 17 mod 3233`. -/
theorem C9_modexp_correct_witness :
    modExp 65 17 3233 = 65 ^ (17 : ℤ).toNat % 3233 :=
  C9_modexp_correct (by norm_num) (by norm_num) (by norm_num) (by norm_num)
    (by norm_num)

/-- C10: for `n ≥ 2` (and `n` representable as a positive `long long`),
`modExp(c, d, n) < n` for every `c` and every derived `d` — even the
sentinel `d = 0`, where the unreduced accumulator 1 is still `< n`.
Hence `attack2`'s closing scan returns `modExp(c, d, n)` itself and its
final `-1` branch is unreachable. -/
theorem C10_scan_equiv (c d n : ℤ) (hn : 2 ≤ n) (hn63 : n < 2 ^ 63) :
    modExp (toU64 c) d (toU64 n) < n.toNat ∧
    attack2Scan (modExp (toU64 c) d (toU64 n)) n 0 =
      ((modExp (toU64 c) d (toU64 n) : ℕ) : ℤ) ∧
    attack2Scan (modExp (toU64 c) d (toU64 n)) n 0 ≠ -1 :=
  attack2_scan_equiv c d n hn hn63

/-- C10 (witness): `c = 4, d = 0, n = 15`. -/
theorem C10_scan_equiv_witness :
    modExp (toU64 4) 0 (toU64 15) < (15 : ℤ).toNat ∧
    attack2Scan (modExp (toU64 4) 0 (toU64 15)) 15 0 =
      ((modExp (toU64 4) 0 (toU64 15) : ℕ) : ℤ) ∧
    attack2Scan (modExp (toU64 4) 0 (toU64 15)) 15 0 ≠ -1 :=
  C10_scan_equiv 4 0 15 (by norm_num) (by norm_num)

/-- C7 (counterexample): at `(e, n, c) = (2, 15, 4)` we have
`gcd(2, φ(15)) = gcd(2, 8) = 2 ≠ 1`, yet `attack2` does not propagate
any failure: `modInverse` returns the sentinel 0, and the attack
reports the bogus recovered plaintext 1 (with `d = 0`). -/
theorem C7_counterexample :
    Int.gcd 2 (totient 3 5) ≠ 1 ∧ attack2 2 15 4 = some (1, 3, 5, 0) := by
  constructor
  · norm_num [totient]
  · have s15 : Nat.sqrt 15 = 3 := sqrt_eq_of (by norm_num) (by norm_num)
    have s5 : Nat.sqrt 5 = 2 := sqrt_eq_of (by norm_num) (by norm_num)
    simp [attack2, primeFactors, factorSeq, stripTwos, trialLoop, divideOut,
      s15, s5, totient, modInverse, egcdLoop_step, egcdLoop_done,
      Int.tmod_eq_emod, Int.tdiv_eq_ediv, modExp, modExpLoop_done,
      attack2Scan_step, attack2Scan_done, toU64]

/-- C7 (amended): for a modulus `n = p * q` of two odd primes `p ≤ q`
(representable in `long long`) and any `e ≥ 0` with
`gcd(e, φ(n)) ≠ 1`, `attack2` does *not* propagate the failure to its
caller: it returns the tuple `(1, p, q, 0)` — sentinel exponent `d = 0`
and "recovered plaintext" `modExp(c, 0, n) = 1` — for every ciphertext
`c`. -/
theorem C7_no_inverse_behavior {p q : ℕ} (hp : p.Prime) (hq : q.Prime)
    (hp2 : p ≠ 2) (hq2 : q ≠ 2) (hpq : p ≤ q) (hn63 : p * q < 2 ^ 63)
    (e c : ℤ) (he : 0 ≤ e)
    (hgcd : Int.gcd e (totient (p : ℤ) (q : ℤ)) ≠ 1) :
    attack2 e ((p * q : ℕ) : ℤ) c = some (1, (p : ℤ), (q : ℤ), 0) :=
  attack2_no_inverse hp hq hp2 hq2 hpq hn63 e c he hgcd

/-- C7 (witness): the instance `(e, n, c) = (2, 15, 4)`. -/
theorem C7_no_inverse_behavior_witness :
    attack2 2 ((3 * 5 : ℕ) : ℤ) 4 = some (1, ((3 : ℕ) : ℤ), ((5 : ℕ) : ℤ), 0) :=
  C7_no_inverse_behavior (by norm_num) (by norm_num) (by norm_num)
    (by norm_num) (by norm_num) (by norm_num) 2 4 (by norm_num)
    (by norm_num [totient])

/-- C8 (counterexample): at `(e, n, c) = (1, 2, 5)` no plaintext in
`[0, 2)` encrypts to 5 (the two candidate tests both fail), and
`attack1` returns the sentinel `-1` through its ordinary `long long`
result — not an explicit `NoSolution` error value. -/
theorem C8_counterexample :
    modExp (toU64 0) 1 (toU64 2) ≠ toU64 5 ∧
    modExp (toU64 1) 1 (toU64 2) ≠ toU64 5 ∧
    attack1 1 2 5 = -1 := by
  refine ⟨?_, ?_, ?_⟩
  · simp [modExp, modExpLoop_step, modExpLoop_done, Int.tmod_eq_emod,
      Int.tdiv_eq_ediv, toU64, U64]
  · simp [modExp, modExpLoop_step, modExpLoop_done, Int.tmod_eq_emod,
      Int.tdiv_eq_ediv, toU64, U64]
  · simp [attack1, attack1Loop_step, attack1Loop_done, modExp,
      modExpLoop_step, modExpLoop_done, Int.tmod_eq_emod, Int.tdiv_eq_ediv,
      toU64, U64]

/-- C8 (amended): whenever no `m ∈ [0, n)` satisfies
`modExp(m, e, n) = c`, `attack1` scans the full candidate range and
returns the sentinel value `-1` — not an explicit `NoSolution` error
result. -/
theorem C8_exhaust_sentinel (e n c : ℤ)
    (h : ∀ m : ℤ, 0 ≤ m → m < n → modExp (toU64 m) e (toU64 n) ≠ toU64 c) :
    attack1 e n c = -1 :=
  attack1_exhaust e n c h

/-- C8 (witness): the instance `(e, n, c) = (1, 2, 5)`. -/
theorem C8_exhaust_sentinel_witness : attack1 1 2 5 = -1 := by
  apply C8_exhaust_sentinel 1 2 5
  intro m h0 h2
  have hm : m = 0 ∨ m = 1 := by omega
  rcases hm with hm | hm <;> subst hm <;>
    simp [modExp, modExpLoop_step, modExpLoop_done, Int.tmod_eq_emod,
      Int.tdiv_eq_ediv, toU64, U64]

/-- C1 (counterexample): the claim quantifies over *any* semiprime
`n = p * q` with `p ≠ q` prime; but for the even semiprime `6 = 2 * 3`
(with `e = 1` coprime to `φ(6) = 2` and `m = 5 < 6`, `c = 5`), the
factoring attack does not return `m`: `primeFactors` discards the
factor 2, under-fills its result vector and has no defined factor pair
(out-of-bounds indexing, modelled `none`). -/
theorem C1_counterexample :
    Nat.Prime 2 ∧ Nat.Prime 3 ∧ (2 : ℕ) ≠ 3 ∧
    Nat.gcd 1 ((2 - 1) * (3 - 1)) = 1 ∧ (5 : ℕ) < 2 * 3 ∧
    attack2 (1 : ℤ) ((2 * 3 : ℕ) : ℤ) ((5 ^ 1 % (2 * 3) : ℕ) : ℤ) = none := by
  refine ⟨by norm_num, by norm_num, by norm_num, by norm_num, by norm_num, ?_⟩
  have s3 : Nat.sqrt 3 = 1 := sqrt_eq_of (by norm_num) (by norm_num)
  norm_num
  simp [attack2, primeFactors, factorSeq, stripTwos, trialLoop, divideOut, s3]

/-- C1 (amended): round-trip correctness holds for semiprimes with two
distinct *odd* primes (and `n²` within the 64-bit width assumption):
for any `e ≥ 1` coprime to `φ(n)` and any plaintext `m < n`, with
`c = m ^ e mod n`, the brute-force attack returns `m` and the factoring
attack returns `m` (together with a factor pair and an exponent). -/
theorem C1_round_trip {p q e m : ℕ} (hp : p.Prime) (hq : q.Prime)
    (hp2 : p ≠ 2) (hq2 : q ≠ 2) (hpq : p ≠ q)
    (hwidth : (p * q) * (p * q) ≤ 2 ^ 64) (he : 1 ≤ e)
    (hgcd : Nat.gcd e ((p - 1) * (q - 1)) = 1) (hm : m < p * q) :
    attack1 (e : ℤ) ((p * q : ℕ) : ℤ) ((m ^ e % (p * q) : ℕ) : ℤ) = (m : ℤ) ∧
    ∃ P Q D : ℤ,
      attack2 (e : ℤ) ((p * q : ℕ) : ℤ) ((m ^ e % (p * q) : ℕ) : ℤ) =
        some ((m : ℤ), P, Q, D) := by
  rcases Nat.lt_or_ge p q with hlt | hge
  · exact ⟨attack1_roundtrip hp hq hp2 hq2 hlt hwidth he hgcd hm,
      _, _, _, attack2_roundtrip hp hq hp2 hq2 hlt hwidth he hgcd hm⟩
  · have hqp : q < p := by omega
    have hgcd' : Nat.gcd e ((q - 1) * (p - 1)) = 1 := by
      rw [Nat.mul_comm (q - 1) (p - 1)]
      exact hgcd
    rw [Nat.mul_comm p q] at hwidth hm ⊢
    exact ⟨attack1_roundtrip hq hp hq2 hp2 hqp hwidth he hgcd' hm,
      _, _, _, attack2_roundtrip hq hp hq2 hp2 hqp hwidth he hgcd' hm⟩

/-- C1 (witness): `p = 3, q = 5, e = 3, m = 2`, so `n = 15`,
`c = 2³ mod 15 = 8`. -/
theorem C1_round_trip_witness :
    attack1 ((3 : ℕ) : ℤ) ((3 * 5 : ℕ) : ℤ) ((2 ^ 3 % (3 * 5) : ℕ) : ℤ) =
      ((2 : ℕ) : ℤ) ∧
    ∃ P Q D : ℤ,
      attack2 ((3 : ℕ) : ℤ) ((3 * 5 : ℕ) : ℤ) ((2 ^ 3 % (3 * 5) : ℕ) : ℤ) =
        some (((2 : ℕ) : ℤ), P, Q, D) :=
  C1_round_trip (by norm_num) (by norm_num) (by norm_num) (by norm_num)
    (by norm_num) (by norm_num) (by norm_num) (by norm_num) (by norm_num)

/-- C2: the concrete scenario `e = 17, n = 3233, c = 2790`: the
brute-force attack returns 65 and the factoring attack returns 65
together with the prime pair `(53, 61)` (ascending trial order finds 53
first) and the private exponent `d = 2753`. -/
theorem C2_concrete_scenario :
    attack1 17 3233 2790 = 65 ∧
    attack2 17 3233 2790 = some (65, 53, 61, 2753) := by
  constructor
  · have h := @attack1_roundtrip 53 61 17 65
      (by norm_num) (by norm_num) (by norm_num) (by norm_num) (by norm_num)
      (by norm_num) (by norm_num) (by norm_num) (by norm_num)
    norm_num at h
    exact h
  · have h := @attack2_roundtrip 53 61 17 65
      (by norm_num) (by norm_num) (by norm_num) (by norm_num) (by norm_num)
      (by norm_num) (by norm_num) (by norm_num) (by norm_num)
    norm_num at h
    have ht : totient (53 : ℤ) 61 = 3120 := by norm_num [totient]
    rw [ht] at h
    have hmi : modInverse 17 3120 = 2753 := by
      simp [modInverse, egcdLoop_step, egcdLoop_done, Int.tmod_eq_emod,
        Int.tdiv_eq_ediv]
    rw [hmi] at h
    exact h
